import Mathlib

/-!
Verification of the stochastic-mapper routing pass
(src/qiskit/transpiler/passes/mapping/stochastic_mapper.py).

The pass walks the serial layers of a program DAG, and for each two-qubit
operation whose physical resources are not adjacent in the coupling graph it
inserts a chain of swap operations derived from one shortest path, updating a
mutable layout as it goes.  The external collaborators (Layout, Coupling,
DAGCircuit) are not part of the given sources, so they are modelled from the
specification; the routing algorithm itself is translated line by line from
StochasticMapper.run.
-/

/-- A logical quantum resource, identified by a register name and an index,
mirroring the python (qreg, index) tuples used as layout keys. -/
abbrev Qubit := String × Nat

/-- One operation node of a DAG circuit: a gate name and its quantum wire
arguments, the data the routing pass inspects. -/
structure Node where
  name : String
  qargs : List Qubit
deriving DecidableEq, Repr

/-- A DAG circuit as seen by the pass: declared quantum registers (name and
size, in declaration order) and the operation nodes in an order compatible
with the dag partial order.  Modelled from the spec: serial decomposition of a
DAGCircuit emits one operation per layer, in topological order, so the node
list is exactly the sequence of serial layers. -/
structure DAG where
  qregs : List (String × Nat)
  nodes : List Node
deriving DecidableEq, Repr

/-- Modelled from the spec: a Layout is a bijection between logical and
physical resources, stored here as an association list of
(logical qubit, physical index) pairs supporting lookups in both directions. -/
structure Layout where
  entries : List (Qubit × Nat)
deriving DecidableEq, Repr

namespace Layout

/-- Logical-to-physical lookup, the python layout[(qreg, index)] read. -/
def vget (l : Layout) (q : Qubit) : Option Nat :=
  (l.entries.find? (fun e => decide (e.1 = q))).map (fun e => e.2)

/-- Physical-to-logical lookup, the python layout[physical] read. -/
def pget (l : Layout) (p : Nat) : Option Qubit :=
  (l.entries.find? (fun e => decide (e.2 = p))).map (fun e => e.1)

/-- The list of logical keys of a layout. -/
def keys (l : Layout) : List Qubit := l.entries.map Prod.fst

/-- The list of physical values of a layout. -/
def vals (l : Layout) : List Nat := l.entries.map Prod.snd

/-- Well-formedness of a layout: no logical key and no physical value occurs
twice, so the association list denotes a partial bijection. -/
def WF (l : Layout) : Prop := l.keys.Nodup ∧ l.vals.Nodup

/-- The transposition of two physical indices, as a function on indices. -/
def transpose (p1 p2 v : Nat) : Nat :=
  if v = p1 then p2 else if v = p2 then p1 else v

/-- Modelled from the spec: Layout.swap exchanges which logical resource is
assigned to each of two physical resources, mutating the layout in place; here
the updated layout is returned. -/
def exchange (l : Layout) (p1 p2 : Nat) : Layout :=
  ⟨l.entries.map (fun e => (e.1, transpose p1 p2 e.2))⟩

/-- Modelled from the spec: Layout.combine_into_edge_map builds the wire
rename map sending each logical qubit q to the logical qubit that the other
layout assigns to the physical resource self assigns to q. -/
def combine_into_edge_map (cur init : Layout) : Qubit → Option Qubit :=
  fun q => (cur.vget q).bind init.pget

end Layout

/-- Modelled from the spec: the Coupling collaborator exposes an immutable
graph over physical indices 0..size-1 with a distance query and a shortest
undirected path query; the path is returned inclusive of both endpoints,
consecutive path elements are at distance one, and a shortest path never
repeats a resource. -/
structure Coupling where
  size : Nat
  dist : Nat → Nat → Nat
  path : Nat → Nat → List Nat
  path_head : ∀ p, p < size → ∀ q, q < size → (path p q).head? = some p
  path_last : ∀ p, p < size → ∀ q, q < size → (path p q).getLast? = some q
  path_chain : ∀ p, p < size → ∀ q, q < size →
    ∀ pr ∈ (path p q).zip (path p q).tail, dist pr.1 pr.2 = 1
  path_nodup : ∀ p, p < size → ∀ q, q < size → (path p q).Nodup
  dist_self : ∀ p, p < size → dist p p = 0

/-- Modelled from the spec: Coupling.distance answers only for resources that
are in the graph and fails otherwise. -/
def Coupling.distance (cm : Coupling) (p q : Nat) : Except String Nat :=
  if p < cm.size then
    if q < cm.size then .ok (cm.dist p q)
    else .error "qubit not in coupling graph"
  else .error "qubit not in coupling graph"

/-- Modelled from the spec: Coupling.shortest_undirected_path answers only for
resources that are in the graph and fails otherwise. -/
def Coupling.shortest_undirected_path (cm : Coupling) (p q : Nat) :
    Except String (List Nat) :=
  if p < cm.size then
    if q < cm.size then .ok (cm.path p q)
    else .error "qubit not in coupling graph"
  else .error "qubit not in coupling graph"

/-- The consecutive pairs of a list, pairing each element with its successor. -/
def consecPairs (l : List Nat) : List (Nat × Nat) := l.zip l.tail

/-- The swap pairs derived from a shortest path: the python loop
for swap in range(len(path) - 2) pairs path[swap] with path[swap + 1], which
is exactly the list of consecutive pairs of the path without its last
element. -/
def chainPairs (path : List Nat) : List (Nat × Nat) := consecPairs path.dropLast

/-- The pass object: coupling map, optional initial layout, and the trial and
seed parameters stored by StochasticMapper.__init__. -/
structure StochasticMapper where
  coupling_map : Coupling
  initial_layout : Option Layout
  trials : Nat
  seed : Option Nat

/-- The one-to-one initial layout built by StochasticMapper.run lines 74-80:
physical indices 0, 1, 2, ... are assigned to the logical qubits of each
declared register, in register declaration order. -/
def buildLayout (qregs : List (String × Nat)) : Layout :=
  ⟨((qregs.map (fun r => (List.range r.2).map (fun i => (r.1, i)))).flatten.enum).map
    (fun e => (e.2, e.1))⟩

/-- The layout a run starts from: the supplied one when present, otherwise the
constructed one-to-one layout (StochasticMapper.run lines 73-81). -/
def resolvedLayout (pass : StochasticMapper) (dag : DAG) : Layout :=
  match pass.initial_layout with
  | some l => l
  | none => buildLayout dag.qregs

/-- Rename the wires of a node through an edge map, the effect of composing a
sub-graph onto the output graph under the map. -/
def renameNode (em : Qubit → Option Qubit) (n : Node) : Node :=
  ⟨n.name, n.qargs.map (fun q => (em q).getD q)⟩

/-- One swap operation node for a chain pair (StochasticMapper.run lines
98-110): its wire labels are the logical qubits the current (not yet updated)
layout assigns to the two physical resources of the pair; a lookup of an
unoccupied physical resource fails like the python dictionary access. -/
def swapNodeOf (cur : Layout) (pr : Nat × Nat) : Except String Node :=
  match cur.pget pr.1, cur.pget pr.2 with
  | some q1, some q2 => .ok ⟨"swap", [q1, q2]⟩
  | none, _ => .error "physical qubit not in layout"
  | some _, none => .error "physical qubit not in layout"

/-- The swap layer built in StochasticMapper.run lines 94-110: one swap node
per chain pair, all read from the same current layout. -/
def swapChainNodes (cur : Layout) (path : List Nat) : Except String (List Node) :=
  (chainPairs path).mapM (swapNodeOf cur)

/-- The layout update in StochasticMapper.run lines 117-118: the swap chain is
applied to the current layout one exchange at a time, in path order. -/
def applyChain (cur : Layout) (path : List Nat) : Layout :=
  (chainPairs path).foldl (fun l pr => l.exchange pr.1 pr.2) cur

/-- Routing of one serial layer (StochasticMapper.run lines 83-121).  A layer
holds a single node; when it is a two-qubit operation whose resolved physical
resources are not at distance one, the swap layer for one shortest path is
appended under the pre-chain rename map, the layout is updated afterwards, and
the node itself is appended under the rename map of the now-current layout. -/
def routeNode (cm : Coupling) (init cur : Layout) (n : Node) :
    Except String (Layout × List Node) :=
  match n.qargs with
  | [a, b] =>
    match cur.vget a, cur.vget b with
    | some q0p, some q1p =>
      (match cm.distance q0p q1p with
      | .error e => .error e
      | .ok d =>
        if d = 1 then
          .ok (cur, [renameNode (Layout.combine_into_edge_map cur init) n])
        else
          match cm.shortest_undirected_path q0p q1p with
          | .error e => .error e
          | .ok path =>
            match swapChainNodes cur path with
            | .error e => .error e
            | .ok swapNodes =>
              .ok (applyChain cur path,
                swapNodes.map (renameNode (Layout.combine_into_edge_map cur init)) ++
                [renameNode
                  (Layout.combine_into_edge_map (applyChain cur path) init) n]))
    | none, _ => .error "qubit not in layout"
    | some _, none => .error "qubit not in layout"
  | _ => .ok (cur, [renameNode (Layout.combine_into_edge_map cur init) n])

/-- The main loop of StochasticMapper.run over the serial layers, threading
the current layout and collecting the output nodes. -/
def routeLayers (cm : Coupling) (init : Layout) :
    List Node → Layout → Except String (List Node × Layout)
  | [], cur => .ok ([], cur)
  | n :: rest, cur =>
    match routeNode cm init cur n with
    | .error e => .error e
    | .ok (cur', ns) =>
      match routeLayers cm init rest cur' with
      | .error e => .error e
      | .ok (res, curF) => .ok (ns ++ res, curF)

/-- StochasticMapper.run: resolve the initial layout (storing a constructed
one on the pass object, the python self.initial_layout assignment), then route
every serial layer in order.  Returns the routing outcome together with the
pass object as it stands after the run. -/
def StochasticMapper.run (pass : StochasticMapper) (dag : DAG) :
    Except String DAG × StochasticMapper :=
  let il := resolvedLayout pass dag
  let pass' : StochasticMapper :=
    { pass with initial_layout := some il }
  ((routeLayers pass.coupling_map il dag.nodes il).map
    (fun r => ⟨dag.qregs, r.1⟩), pass')

/-- The distance on a linear coupling graph. -/
def lineDist (p q : Nat) : Nat := max p q - min p q

/-- The unique simple path between two resources of a linear coupling graph,
listed from the first argument to the second. -/
def linePath (p q : Nat) : List Nat :=
  if p ≤ q then List.range' p (q + 1 - p) else (List.range' q (p + 1 - q)).reverse

/-- The 4-resource linear coupling graph 0-1-2-3 of the spec scenario. -/
def lineCoupling4 : Coupling where
  size := 4
  dist := lineDist
  path := linePath
  path_head := by decide
  path_last := by decide
  path_chain := by decide
  path_nodup := by decide
  dist_self := by decide

/-- A layout permutation invariant: the current layout during a run is a
relabeling of the starting layout, with the same logical keys and the same set
of physical values, and still a partial bijection. -/
def LayoutInv (init cur : Layout) : Prop :=
  cur.WF ∧ cur.keys = init.keys ∧ (∀ p, p ∈ cur.vals ↔ p ∈ init.vals)

/-- Adjacency of an output node: when it is a two-qubit operation, the
physical resources its wires denote under the starting layout are at coupling
distance one. -/
def GoodNode (cm : Coupling) (init : Layout) (n : Node) : Prop :=
  ∀ a b, n.qargs = [a, b] →
    ∃ pa pb, init.vget a = some pa ∧ init.vget b = some pb ∧ cm.dist pa pb = 1

/-- The permutation of physical indices effected by a list of exchanges,
applied left to right. -/
def permOfPairs (prs : List (Nat × Nat)) (v : Nat) : Nat :=
  prs.foldl (fun x pr => Layout.transpose pr.1 pr.2 x) v

/-- The spec scenario program: one two-qubit operation between the logical
resources that the default layout places on physical resources 0 and 3. -/
def dagL : DAG := ⟨[("q", 4)], [⟨"cx", [("q", 0), ("q", 3)]⟩]⟩

/-- A pass over the linear coupling graph with no supplied layout, trial count
20 and no seed. -/
def passL : StochasticMapper := ⟨lineCoupling4, none, 20, none⟩

/-- A five-qubit program with a single one-qubit operation, used against the
four-resource coupling graph. -/
def dag5 : DAG := ⟨[("q", 5)], [⟨"h", [("q", 0)]⟩]⟩

/-- A five-qubit program whose two-qubit operation touches the fifth logical
resource, which the constructed layout places outside the four-resource
coupling graph. -/
def dag5cx : DAG := ⟨[("q", 5)], [⟨"cx", [("q", 4), ("q", 0)]⟩]⟩

/-- A two-qubit program over a register named a. -/
def dagA : DAG := ⟨[("a", 2)], [⟨"cx", [("a", 0), ("a", 1)]⟩]⟩

/-- The same program over a register named b. -/
def dagB : DAG := ⟨[("b", 2)], [⟨"cx", [("b", 0), ("b", 1)]⟩]⟩

/-- The graph the pass produces for the spec scenario: a chain of two swaps
along the only path, followed by the two-qubit operation on the wires that the
starting layout places on physical resources 2 and 3. -/
def outL : DAG := ⟨[("q", 4)],
  [⟨"swap", [("q", 0), ("q", 1)]⟩, ⟨"swap", [("q", 1), ("q", 2)]⟩,
   ⟨"cx", [("q", 2), ("q", 3)]⟩]⟩

/-- Decidable equality of run results, used to evaluate concrete runs. -/
instance {α : Type} [DecidableEq α] : DecidableEq (Except String α) := fun a b =>
  match a, b with
  | .error e1, .error e2 =>
      if h : e1 = e2 then isTrue (by rw [h]) else
        isFalse (fun hc => h (by injection hc))
  | .ok d1, .ok d2 =>
      if h : d1 = d2 then isTrue (by rw [h]) else
        isFalse (fun hc => h (by injection hc))
  | .error e1, .ok d2 => isFalse (fun hc => by injection hc)
  | .ok d1, .error e2 => isFalse (fun hc => by injection hc)

/-! Lemmas about layouts as association lists. -/

namespace Layout

theorem vget_mem {l : Layout} {q : Qubit} {p : Nat} (h : l.vget q = some p) :
    (q, p) ∈ l.entries := by
  unfold vget at h
  rcases hf : l.entries.find? (fun e => decide (e.1 = q)) with _ | e
  · rw [hf] at h; simp at h
  · rw [hf] at h
    simp only [Option.map] at h
    have hm := List.mem_of_find?_eq_some hf
    have hp := List.find?_some hf
    simp only [decide_eq_true_eq] at hp
    cases h
    subst hp
    simpa using hm

theorem pget_mem {l : Layout} {p : Nat} {q : Qubit} (h : l.pget p = some q) :
    (q, p) ∈ l.entries := by
  unfold pget at h
  rcases hf : l.entries.find? (fun e => decide (e.2 = p)) with _ | e
  · rw [hf] at h; simp at h
  · rw [hf] at h
    simp only [Option.map] at h
    have hm := List.mem_of_find?_eq_some hf
    have hp := List.find?_some hf
    simp only [decide_eq_true_eq] at hp
    cases h
    subst hp
    simpa using hm

theorem mem_vget {l : Layout} {q : Qubit} {p : Nat}
    (hk : l.keys.Nodup) (h : (q, p) ∈ l.entries) : l.vget q = some p := by
  rcases l with ⟨entries⟩
  induction entries with
  | nil => simp at h
  | cons e t ih =>
      simp only [keys, List.map_cons, List.nodup_cons] at hk
      rcases List.mem_cons.1 h with he | ht
      · subst he
        simp [vget, List.find?]
      · have hq : e.1 ≠ q := by
          intro hqe
          exact hk.1 (hqe ▸ List.mem_map_of_mem Prod.fst ht)
        have := ih hk.2 ht
        simpa [vget, List.find?, hq] using this

theorem mem_pget {l : Layout} {q : Qubit} {p : Nat}
    (hv : l.vals.Nodup) (h : (q, p) ∈ l.entries) : l.pget p = some q := by
  rcases l with ⟨entries⟩
  induction entries with
  | nil => simp at h
  | cons e t ih =>
      simp only [vals, List.map_cons, List.nodup_cons] at hv
      rcases List.mem_cons.1 h with he | ht
      · subst he
        simp [pget, List.find?]
      · have hq : e.2 ≠ p := by
          intro hqe
          exact hv.1 (hqe ▸ List.mem_map_of_mem Prod.snd ht)
        have := ih hv.2 ht
        simpa [pget, List.find?, hq] using this

theorem vget_isSome_iff {l : Layout} {q : Qubit} :
    (l.vget q).isSome ↔ q ∈ l.keys := by
  rcases l with ⟨entries⟩
  induction entries with
  | nil => simp [vget, keys]
  | cons e t ih =>
      by_cases hq : e.1 = q
      · simp [vget, keys, List.find?, hq]
      · simpa [vget, keys, List.find?, hq, Ne.symm hq] using ih

theorem pget_isSome_iff {l : Layout} {p : Nat} :
    (l.pget p).isSome ↔ p ∈ l.vals := by
  rcases l with ⟨entries⟩
  induction entries with
  | nil => simp [pget, vals]
  | cons e t ih =>
      by_cases hp : e.2 = p
      · simp [pget, vals, List.find?, hp]
      · simpa [pget, vals, List.find?, hp, Ne.symm hp] using ih

theorem vget_pget {l : Layout} {q : Qubit} {p : Nat} (hWF : l.WF)
    (h : l.vget q = some p) : l.pget p = some q :=
  mem_pget hWF.2 (vget_mem h)

theorem pget_vget {l : Layout} {q : Qubit} {p : Nat} (hWF : l.WF)
    (h : l.pget p = some q) : l.vget q = some p :=
  mem_vget hWF.1 (pget_mem h)

theorem mem_vals_of_vget {l : Layout} {q : Qubit} {p : Nat}
    (h : l.vget q = some p) : p ∈ l.vals :=
  List.mem_map_of_mem Prod.snd (vget_mem h)

theorem snd_nodup_inj {t : List (Qubit × Nat)} {a b : Qubit} {p : Nat}
    (hv : (t.map Prod.snd).Nodup) (ha : (a, p) ∈ t) (hb : (b, p) ∈ t) :
    a = b := by
  induction t with
  | nil => simp at ha
  | cons e r ih =>
      simp only [List.map_cons, List.nodup_cons] at hv
      rcases List.mem_cons.1 ha with hea | hta
      · rcases List.mem_cons.1 hb with heb | htb
        · rw [← hea] at heb
          exact congrArg Prod.fst heb.symm
        · exact absurd (by simpa [← hea] using List.mem_map_of_mem Prod.snd htb)
            hv.1
      · rcases List.mem_cons.1 hb with heb | htb
        · exact absurd (by simpa [← heb] using List.mem_map_of_mem Prod.snd hta)
            hv.1
        · exact ih hv.2 hta htb

theorem vget_inj {l : Layout} {a b : Qubit} {p : Nat} (hWF : l.WF)
    (ha : l.vget a = some p) (hb : l.vget b = some p) : a = b :=
  snd_nodup_inj hWF.2 (vget_mem ha) (vget_mem hb)

end Layout


namespace Layout

theorem transpose_involutive (p1 p2 : Nat) :
    Function.Involutive (transpose p1 p2) := by
  intro v
  unfold transpose
  split_ifs <;> omega

theorem transpose_fst (p1 p2 : Nat) : transpose p1 p2 p1 = p2 := by
  unfold transpose
  simp

theorem transpose_snd (p1 p2 : Nat) : transpose p1 p2 p2 = p1 := by
  unfold transpose
  split_ifs <;> omega

theorem transpose_other {p1 p2 v : Nat} (h1 : v ≠ p1) (h2 : v ≠ p2) :
    transpose p1 p2 v = v := by
  unfold transpose
  rw [if_neg h1, if_neg h2]

theorem exchange_vget (l : Layout) (p1 p2 : Nat) (q : Qubit) :
    (l.exchange p1 p2).vget q = (l.vget q).map (transpose p1 p2) := by
  rcases l with ⟨entries⟩
  induction entries with
  | nil => simp [exchange, vget]
  | cons e t ih =>
      by_cases hq : e.1 = q
      · simp [exchange, vget, List.find?, hq]
      · simpa [exchange, vget, List.find?, hq] using ih

theorem exchange_pget (l : Layout) (p1 p2 p : Nat) :
    (l.exchange p1 p2).pget p = l.pget (transpose p1 p2 p) := by
  rcases l with ⟨entries⟩
  induction entries with
  | nil => simp [exchange, pget]
  | cons e t ih =>
      by_cases h : transpose p1 p2 e.2 = p
      · have h2 : e.2 = transpose p1 p2 p := by
          rw [← h, transpose_involutive]
        have hd1 : decide (transpose p1 p2 e.2 = p) = true := decide_eq_true h
        have hd2 : decide (e.2 = transpose p1 p2 p) = true := decide_eq_true h2
        simp [exchange, pget, List.find?, hd1, hd2]
      · have h2 : e.2 ≠ transpose p1 p2 p := by
          intro hc
          exact h (by rw [hc, transpose_involutive])
        have hd1 : decide (transpose p1 p2 e.2 = p) = false :=
          decide_eq_false h
        have hd2 : decide (e.2 = transpose p1 p2 p) = false :=
          decide_eq_false h2
        simpa [exchange, pget, List.find?, hd1, hd2] using ih

theorem exchange_keys (l : Layout) (p1 p2 : Nat) :
    (l.exchange p1 p2).keys = l.keys := by
  simp [exchange, keys]

theorem exchange_vals (l : Layout) (p1 p2 : Nat) :
    (l.exchange p1 p2).vals = l.vals.map (transpose p1 p2) := by
  simp [exchange, vals]

theorem exchange_WF {l : Layout} (p1 p2 : Nat) (h : l.WF) :
    (l.exchange p1 p2).WF := by
  refine ⟨?_, ?_⟩
  · rw [exchange_keys]; exact h.1
  · rw [exchange_vals]
    exact h.2.map ((transpose_involutive p1 p2).injective)

theorem exchange_mem_vals {l : Layout} {p1 p2 : Nat}
    (h1 : p1 ∈ l.vals) (h2 : p2 ∈ l.vals) (x : Nat) :
    x ∈ (l.exchange p1 p2).vals ↔ x ∈ l.vals := by
  rw [exchange_vals]
  constructor
  · intro hx
    rcases List.mem_map.1 hx with ⟨y, hy, hyx⟩
    subst hyx
    unfold transpose
    split_ifs <;> assumption
  · intro hx
    refine List.mem_map.2 ⟨transpose p1 p2 x, ?_, transpose_involutive p1 p2 x⟩
    unfold transpose
    split_ifs <;> assumption

end Layout

theorem foldl_exchange_vget (prs : List (Nat × Nat)) (l : Layout) (q : Qubit) :
    (prs.foldl (fun a pr => a.exchange pr.1 pr.2) l).vget q =
      (l.vget q).map (permOfPairs prs) := by
  induction prs generalizing l with
  | nil => cases h : l.vget q <;> simp [permOfPairs, h]
  | cons pr prs ih =>
      simp only [List.foldl_cons]
      rw [ih, Layout.exchange_vget]
      cases h : l.vget q <;> simp [permOfPairs, h]

theorem foldl_exchange_inv (prs : List (Nat × Nat)) (l : Layout)
    (hWF : l.WF) (hmem : ∀ pr ∈ prs, pr.1 ∈ l.vals ∧ pr.2 ∈ l.vals) :
    (prs.foldl (fun a pr => a.exchange pr.1 pr.2) l).WF ∧
    (prs.foldl (fun a pr => a.exchange pr.1 pr.2) l).keys = l.keys ∧
    (∀ x, x ∈ (prs.foldl (fun a pr => a.exchange pr.1 pr.2) l).vals ↔
      x ∈ l.vals) := by
  induction prs generalizing l with
  | nil => exact ⟨hWF, rfl, fun x => Iff.rfl⟩
  | cons pr prs ih =>
      simp only [List.foldl_cons]
      have h1 := (hmem pr (List.mem_cons_self pr prs)).1
      have h2 := (hmem pr (List.mem_cons_self pr prs)).2
      have hWF' := Layout.exchange_WF pr.1 pr.2 hWF
      have hmem' : ∀ x ∈ prs,
          x.1 ∈ (l.exchange pr.1 pr.2).vals ∧
          x.2 ∈ (l.exchange pr.1 pr.2).vals := by
        intro x hx
        have hm := hmem x (List.mem_cons_of_mem pr hx)
        exact ⟨(Layout.exchange_mem_vals h1 h2 x.1).2 hm.1,
          (Layout.exchange_mem_vals h1 h2 x.2).2 hm.2⟩
      obtain ⟨w1, w2, w3⟩ := ih (l.exchange pr.1 pr.2) hWF' hmem'
      refine ⟨w1, ?_, ?_⟩
      · rw [w2, Layout.exchange_keys]
      · intro x
        rw [w3 x, Layout.exchange_mem_vals h1 h2]

theorem applyChain_vget (cur : Layout) (path : List Nat) (q : Qubit) :
    (applyChain cur path).vget q =
      (cur.vget q).map (permOfPairs (chainPairs path)) :=
  foldl_exchange_vget (chainPairs path) cur q

theorem chainPairs_cons3 (a b c : Nat) (r : List Nat) :
    chainPairs (a :: b :: c :: r) = (a, b) :: chainPairs (b :: c :: r) := rfl

theorem chainPairs_length (path : List Nat) :
    (chainPairs path).length = path.length - 2 := by
  unfold chainPairs consecPairs
  rw [List.length_zip, List.length_tail, List.length_dropLast]
  omega

theorem permOfPairs_cons (pr : Nat × Nat) (prs : List (Nat × Nat)) (v : Nat) :
    permOfPairs (pr :: prs) v =
      permOfPairs prs (Layout.transpose pr.1 pr.2 v) := rfl

theorem permOfPairs_fixed {prs : List (Nat × Nat)} {v : Nat}
    (h : ∀ pr ∈ prs, v ≠ pr.1 ∧ v ≠ pr.2) : permOfPairs prs v = v := by
  induction prs with
  | nil => rfl
  | cons pr prs ih =>
      have h1 := h pr (List.mem_cons_self pr prs)
      rw [permOfPairs_cons, Layout.transpose_other h1.1 h1.2]
      exact ih (fun x hx => h x (List.mem_cons_of_mem pr hx))

theorem consecPairs_mem {l : List Nat} {pr : Nat × Nat}
    (h : pr ∈ consecPairs l) : pr.1 ∈ l ∧ pr.2 ∈ l := by
  unfold consecPairs at h
  rcases pr with ⟨x, y⟩
  have hz := List.of_mem_zip h
  exact ⟨hz.1, List.mem_of_mem_tail hz.2⟩

theorem chainPairs_mem {path : List Nat} {pr : Nat × Nat}
    (h : pr ∈ chainPairs path) :
    pr.1 ∈ path.dropLast ∧ pr.2 ∈ path.dropLast :=
  consecPairs_mem h

theorem chainPairs_subset (path : List Nat) :
    ∀ pr ∈ chainPairs path, pr ∈ consecPairs path := by
  match path with
  | [] => simp [chainPairs, consecPairs]
  | [a] => simp [chainPairs, consecPairs]
  | [a, b] =>
      intro pr hpr
      simp [chainPairs, consecPairs] at hpr
  | a :: b :: c :: r =>
      intro pr hpr
      rw [chainPairs_cons3] at hpr
      have hc : consecPairs (a :: b :: c :: r) =
          (a, b) :: consecPairs (b :: c :: r) := rfl
      rw [hc]
      rcases List.mem_cons.1 hpr with h | h
      · exact List.mem_cons.2 (Or.inl h)
      · exact List.mem_cons.2 (Or.inr (chainPairs_subset (b :: c :: r) pr h))

theorem permChain_head (l : List Nat) (a b : Nat) :
    ((a :: b :: l).dropLast).getLast? =
      some (permOfPairs (chainPairs (a :: b :: l)) a) := by
  match l with
  | [] => rfl
  | c :: r =>
      rw [chainPairs_cons3, permOfPairs_cons]
      have ht : Layout.transpose (a, b).1 (a, b).2 a = b :=
        Layout.transpose_fst a b
      rw [ht]
      have hd : (a :: b :: c :: r).dropLast = a :: (b :: c :: r).dropLast := rfl
      have hd2 : (b :: c :: r).dropLast = b :: (c :: r).dropLast := rfl
      rw [hd, hd2, List.getLast?_cons_cons, ← hd2]
      exact permChain_head r b c

theorem getLast?_mem_self : ∀ {l : List Nat} {z : Nat},
    l.getLast? = some z → z ∈ l := by
  intro l
  induction l with
  | nil => intro z h; simp at h
  | cons a t ih =>
      intro z h
      match t, h with
      | [], h => simp at h; simp [h]
      | b :: t2, h =>
          rw [List.getLast?_cons_cons] at h
          exact List.mem_cons.2 (Or.inr (ih h))

theorem nodup_last_not_dropLast : ∀ {l : List Nat} {z : Nat},
    l.Nodup → l.getLast? = some z → z ∉ l.dropLast := by
  intro l
  induction l with
  | nil => intro z _ h; simp at h
  | cons a t ih =>
      intro z hnd h
      match t, h with
      | [], h => simp
      | b :: t2, h =>
          rw [List.getLast?_cons_cons] at h
          have hnd2 := List.nodup_cons.1 hnd
          have hz : z ∈ b :: t2 := getLast?_mem_self h
          have hza : z ≠ a := fun he => hnd2.1 (he ▸ hz)
          have hdl : (a :: b :: t2).dropLast = a :: (b :: t2).dropLast := rfl
          rw [hdl]
          intro hmem
          rcases List.mem_cons.1 hmem with he | hm
          · exact hza he
          · exact ih hnd2.2 h hm

theorem permChain_last {path : List Nat} {z : Nat} (hnd : path.Nodup)
    (h : path.getLast? = some z) :
    permOfPairs (chainPairs path) z = z := by
  refine permOfPairs_fixed (fun pr hpr => ?_)
  have hm := chainPairs_mem hpr
  have hz := nodup_last_not_dropLast hnd h
  exact ⟨fun he => hz (he ▸ hm.1), fun he => hz (he ▸ hm.2)⟩

theorem permChain_middle : ∀ (path : List Nat), path.Nodup →
    ∀ j, j + 2 < path.length →
    permOfPairs (chainPairs path) (path.getD (j + 1) 0) = path.getD j 0 := by
  intro path
  match path with
  | [] => intro _ j hj; simp at hj
  | [a] => intro _ j hj; simp at hj
  | [a, b] => intro _ j hj; simp at hj
  | a :: b :: c :: r =>
      intro hnd j hj
      have hnd1 := List.nodup_cons.1 hnd
      have hnd2 := List.nodup_cons.1 hnd1.2
      rw [chainPairs_cons3, permOfPairs_cons]
      match j with
      | 0 =>
          have hx : (a :: b :: c :: r).getD 1 0 = b := rfl
          have ht : Layout.transpose (a, b).1 (a, b).2 b =
              a := Layout.transpose_snd a b
          rw [hx, ht]
          have hfix : permOfPairs (chainPairs (b :: c :: r)) a = a := by
            refine permOfPairs_fixed (fun pr hpr => ?_)
            have hm := chainPairs_mem hpr
            have h1 : pr.1 ∈ b :: c :: r := List.dropLast_subset _ hm.1
            have h2 : pr.2 ∈ b :: c :: r := List.dropLast_subset _ hm.2
            exact ⟨fun he => hnd1.1 (he ▸ h1), fun he => hnd1.1 (he ▸ h2)⟩
          rw [hfix]
          rfl
      | Nat.succ j2 =>
          have hx : (a :: b :: c :: r).getD (j2 + 1 + 1) 0 =
              (b :: c :: r).getD (j2 + 1) 0 := rfl
          have hx2 : (b :: c :: r).getD (j2 + 1) 0 = (c :: r).getD j2 0 := rfl
          have hlen : j2 < (c :: r).length := by
            simp only [List.length_cons] at hj ⊢
            omega
          have hmem : (c :: r).getD j2 0 ∈ c :: r := by
            rw [List.getD_eq_getElem (c :: r) 0 hlen]
            exact List.getElem_mem hlen
          have hne1 : (b :: c :: r).getD (j2 + 1) 0 ≠ a := by
            rw [hx2]
            intro he
            exact hnd1.1 (List.mem_cons.2 (Or.inr (he ▸ hmem)))
          have hne2 : (b :: c :: r).getD (j2 + 1) 0 ≠ b := by
            rw [hx2]
            intro he
            exact hnd2.1 (he ▸ hmem)
          rw [hx, Layout.transpose_other hne1 hne2]
          have ih := permChain_middle (b :: c :: r) hnd1.2 j2
            (by simp only [List.length_cons] at hj ⊢; omega)
          rw [ih]
          rfl

theorem consec_last : ∀ (l : List Nat) (w z : Nat),
    l.dropLast.getLast? = some w → l.getLast? = some z →
    (w, z) ∈ consecPairs l := by
  intro l
  match l with
  | [] => intro w z hw _; simp at hw
  | [a] => intro w z hw _; simp at hw
  | [a, b] =>
      intro w z hw hz
      simp at hw hz
      subst hw
      subst hz
      exact List.mem_cons_self _ _
  | a :: b :: c :: r =>
      intro w z hw hz
      have hd : (a :: b :: c :: r).dropLast = a :: (b :: c :: r).dropLast := rfl
      have hd2 : (b :: c :: r).dropLast = b :: (c :: r).dropLast := rfl
      rw [hd, hd2, List.getLast?_cons_cons, ← hd2] at hw
      rw [List.getLast?_cons_cons] at hz
      have ih := consec_last (b :: c :: r) w z hw hz
      have hc : consecPairs (a :: b :: c :: r) =
          (a, b) :: consecPairs (b :: c :: r) := rfl
      rw [hc]
      exact List.mem_cons.2 (Or.inr ih)

/-- The wire labels of one emitted swap node come from the layout the node was
built against. -/
theorem swapNodeOf_ok {cur : Layout} {pr : Nat × Nat} {m : Node}
    (h : swapNodeOf cur pr = .ok m) :
    ∃ q1 q2, m = Node.mk "swap" [q1, q2] ∧
      cur.pget pr.1 = some q1 ∧ cur.pget pr.2 = some q2 := by
  unfold swapNodeOf at h
  rcases h1 : cur.pget pr.1 with _ | q1
  · rw [h1] at h; simp at h
  · rcases h2 : cur.pget pr.2 with _ | q2
    · rw [h1, h2] at h; simp at h
    · rw [h1, h2] at h
      simp only [Except.ok.injEq] at h
      exact ⟨q1, q2, h.symm, rfl, rfl⟩

theorem swapChainNodes_forall₂ : ∀ (prs : List (Nat × Nat)) (cur : Layout)
    (sns : List Node), prs.mapM (swapNodeOf cur) = .ok sns →
    List.Forall₂ (fun pr m => ∃ q1 q2, m = Node.mk "swap" [q1, q2] ∧
      cur.pget pr.1 = some q1 ∧ cur.pget pr.2 = some q2) prs sns := by
  intro prs
  induction prs with
  | nil =>
      intro cur sns h
      simp only [List.mapM_nil] at h
      have : ([] : List Node) = sns := by
        simpa [pure, Except.pure] using h
      rw [← this]
      exact List.Forall₂.nil
  | cons pr t ih =>
      intro cur sns h
      rw [List.mapM_cons] at h
      rcases hx : swapNodeOf cur pr with e | b
      · rw [hx] at h
        simp [Bind.bind, Except.bind] at h
      · rw [hx] at h
        simp only [Bind.bind, Except.bind] at h
        rcases hbs : t.mapM (swapNodeOf cur) with e | bs
        · rw [hbs] at h
          simp at h
        · rw [hbs] at h
          simp only [pure, Except.pure, Except.ok.injEq] at h
          rw [← h]
          exact List.Forall₂.cons (swapNodeOf_ok hx) (ih cur bs hbs)

theorem forall₂_left_mem {α β : Type} {R : α → β → Prop} {l1 : List α}
    {l2 : List β} (h : List.Forall₂ R l1 l2) :
    ∀ a ∈ l1, ∃ b ∈ l2, R a b := by
  induction h with
  | nil => intro a ha; simp at ha
  | cons h1 h2 ih =>
      intro x hx
      rcases List.mem_cons.1 hx with he | hm
      · subst he
        exact ⟨_, List.mem_cons_self _ _, h1⟩
      · rcases ih x hm with ⟨b, hb, hr⟩
        exact ⟨b, List.mem_cons_of_mem _ hb, hr⟩

theorem forall₂_right_mem {α β : Type} {R : α → β → Prop} {l1 : List α}
    {l2 : List β} (h : List.Forall₂ R l1 l2) :
    ∀ b ∈ l2, ∃ a ∈ l1, R a b := by
  induction h with
  | nil => intro b hb; simp at hb
  | cons h1 h2 ih =>
      intro x hx
      rcases List.mem_cons.1 hx with he | hm
      · subst he
        exact ⟨_, List.mem_cons_self _ _, h1⟩
      · rcases ih x hm with ⟨a, ha, hr⟩
        exact ⟨a, List.mem_cons_of_mem _ ha, hr⟩

/-- Full case analysis of a successful routing step: either no chain was
inserted (the node is not a two-qubit operation, or its resources are already
at distance one) and the layout is unchanged, or a swap chain for one shortest
path was emitted under the pre-chain rename map and the layout was updated
afterwards. -/
theorem routeNode_spec {cm : Coupling} {init cur : Layout} {n : Node}
    {cur' : Layout} {ns : List Node}
    (hok : routeNode cm init cur n = .ok (cur', ns)) :
    (cur' = cur ∧ ns = [renameNode (Layout.combine_into_edge_map cur init) n] ∧
      ((∀ a b, n.qargs ≠ [a, b]) ∨
        ∃ a b pa pb, n.qargs = [a, b] ∧ cur.vget a = some pa ∧
          cur.vget b = some pb ∧ pa < cm.size ∧ pb < cm.size ∧
          cm.dist pa pb = 1)) ∨
    (∃ a b pa pb sns, n.qargs = [a, b] ∧ cur.vget a = some pa ∧
      cur.vget b = some pb ∧ pa < cm.size ∧ pb < cm.size ∧
      cm.dist pa pb ≠ 1 ∧
      swapChainNodes cur (cm.path pa pb) = .ok sns ∧
      cur' = applyChain cur (cm.path pa pb) ∧
      ns = sns.map (renameNode (Layout.combine_into_edge_map cur init)) ++
        [renameNode (Layout.combine_into_edge_map
          (applyChain cur (cm.path pa pb)) init) n]) := by
  rcases n with ⟨nm, qargs⟩
  rcases qargs with _ | ⟨a, _ | ⟨b, _ | ⟨c, t⟩⟩⟩
  · simp only [routeNode, Except.ok.injEq, Prod.mk.injEq] at hok
    exact Or.inl ⟨hok.1.symm, hok.2.symm, Or.inl (by intro x y h; simp at h)⟩
  · simp only [routeNode, Except.ok.injEq, Prod.mk.injEq] at hok
    exact Or.inl ⟨hok.1.symm, hok.2.symm, Or.inl (by intro x y h; simp at h)⟩
  · -- the two-qubit case
    simp only [routeNode] at hok
    rcases hva : cur.vget a with _ | pa
    · rw [hva] at hok; simp at hok
    rcases hvb : cur.vget b with _ | pb
    · rw [hva, hvb] at hok; simp at hok
    rw [hva, hvb] at hok
    simp only [Coupling.distance] at hok
    by_cases hpa : pa < cm.size
    swap
    · rw [if_neg hpa] at hok; simp at hok
    by_cases hpb : pb < cm.size
    swap
    · rw [if_pos hpa, if_neg hpb] at hok; simp at hok
    rw [if_pos hpa, if_pos hpb] at hok
    simp only [] at hok
    by_cases hd : cm.dist pa pb = 1
    · rw [if_pos hd] at hok
      simp only [Except.ok.injEq, Prod.mk.injEq] at hok
      refine Or.inl ⟨hok.1.symm, hok.2.symm, Or.inr ?_⟩
      exact ⟨a, b, pa, pb, rfl, hva, hvb, hpa, hpb, hd⟩
    · rw [if_neg hd] at hok
      simp only [Coupling.shortest_undirected_path, if_pos hpa,
        if_pos hpb] at hok
      rcases hsns : swapChainNodes cur (cm.path pa pb) with e | sns
      · rw [hsns] at hok; simp at hok
      rw [hsns] at hok
      simp only [] at hok
      simp only [Except.ok.injEq, Prod.mk.injEq] at hok
      refine Or.inr ⟨a, b, pa, pb, sns, rfl, hva, hvb, hpa, hpb, hd,
        hsns, hok.1.symm, hok.2.symm⟩
  · simp only [routeNode, Except.ok.injEq, Prod.mk.injEq] at hok
    exact Or.inl ⟨hok.1.symm, hok.2.symm, Or.inl (by intro x y h; simp at h)⟩

theorem path_shape (cm : Coupling) {pa pb : Nat} (hpa : pa < cm.size)
    (hpb : pb < cm.size) (hne : pa ≠ pb) :
    ∃ y t, cm.path pa pb = pa :: y :: t := by
  have hh := cm.path_head pa hpa pb hpb
  have hl := cm.path_last pa hpa pb hpb
  rcases hp : cm.path pa pb with _ | ⟨x, _ | ⟨y, t⟩⟩
  · rw [hp] at hh; simp at hh
  · rw [hp] at hh hl
    simp at hh hl
    exact absurd (hh.symm.trans hl) hne
  · rw [hp] at hh
    simp at hh
    exact ⟨y, t, by rw [hh]⟩

theorem renamed_good {cm : Coupling} {init c : Layout} {n : Node}
    {a b : Qubit} {pa pb : Nat}
    (hWFi : init.WF) (hinv : LayoutInv init c)
    (hqa : n.qargs = [a, b])
    (hva : c.vget a = some pa) (hvb : c.vget b = some pb)
    (hd : cm.dist pa pb = 1) :
    GoodNode cm init (renameNode (Layout.combine_into_edge_map c init) n) := by
  intro x y hxy
  have hpa_i : pa ∈ init.vals := (hinv.2.2 pa).1 (Layout.mem_vals_of_vget hva)
  have hpb_i : pb ∈ init.vals := (hinv.2.2 pb).1 (Layout.mem_vals_of_vget hvb)
  obtain ⟨wa, hwa⟩ := Option.isSome_iff_exists.1 (Layout.pget_isSome_iff.2 hpa_i)
  obtain ⟨wb, hwb⟩ := Option.isSome_iff_exists.1 (Layout.pget_isSome_iff.2 hpb_i)
  have hq : (renameNode (Layout.combine_into_edge_map c init) n).qargs =
      [wa, wb] := by
    simp [renameNode, hqa, Layout.combine_into_edge_map, hva, hvb, hwa, hwb]
  rw [hq] at hxy
  have hx : wa = x := by injection hxy with h1 h2
  have hy : wb = y := by
    injection hxy with h1 h2
    injection h2 with h3 h4
  subst hx
  subst hy
  exact ⟨pa, pb, Layout.pget_vget hWFi hwa, Layout.pget_vget hWFi hwb, hd⟩

theorem chain_mem_vals {cur : Layout} {path : List Nat} {sns : List Node}
    (hsns : swapChainNodes cur path = .ok sns) :
    ∀ pr ∈ chainPairs path, pr.1 ∈ cur.vals ∧ pr.2 ∈ cur.vals := by
  have hf := swapChainNodes_forall₂ (chainPairs path) cur sns hsns
  intro pr hpr
  rcases forall₂_left_mem hf pr hpr with ⟨m, hm, q1, q2, hmeq, h1, h2⟩
  exact ⟨Layout.pget_isSome_iff.1 (by rw [h1]; rfl),
    Layout.pget_isSome_iff.1 (by rw [h2]; rfl)⟩

theorem applyChain_inv {init cur : Layout} {path : List Nat}
    (hinv : LayoutInv init cur)
    (hmem : ∀ pr ∈ chainPairs path, pr.1 ∈ cur.vals ∧ pr.2 ∈ cur.vals) :
    LayoutInv init (applyChain cur path) := by
  obtain ⟨w1, w2, w3⟩ := foldl_exchange_inv (chainPairs path) cur hinv.1 hmem
  exact ⟨w1, w2.trans hinv.2.1, fun p => (w3 p).trans (hinv.2.2 p)⟩

theorem routeNode_inv {cm : Coupling} {init cur cur' : Layout} {n : Node}
    {ns : List Node} (hinv : LayoutInv init cur)
    (hok : routeNode cm init cur n = .ok (cur', ns)) :
    LayoutInv init cur' := by
  rcases routeNode_spec hok with ⟨hc, _, _⟩ |
    ⟨a, b, pa, pb, sns, _, _, _, _, _, _, hsns, hc, _⟩
  · rw [hc]; exact hinv
  · rw [hc]; exact applyChain_inv hinv (chain_mem_vals hsns)

theorem routeNode_good {cm : Coupling} {init cur cur' : Layout} {n : Node}
    {ns : List Node}
    (hWFi : init.WF) (hargs : n.qargs.Nodup) (hinv : LayoutInv init cur)
    (hok : routeNode cm init cur n = .ok (cur', ns)) :
    ∀ m ∈ ns, GoodNode cm init m := by
  rcases routeNode_spec hok with ⟨hc, hns, hcase⟩ |
    ⟨a, b, pa, pb, sns, hqa, hva, hvb, hpa, hpb, hd, hsns, hc, hns⟩
  · rcases hcase with hnot | ⟨a, b, pa, pb, hqa, hva, hvb, hpa, hpb, hd⟩
    · intro m hm
      rw [hns] at hm
      rw [List.mem_singleton.1 hm]
      intro x y hxy
      exfalso
      have hlen : n.qargs.length = 2 := by
        have := congrArg List.length hxy
        simpa [renameNode] using this
      rcases hql : n.qargs with _ | ⟨u, _ | ⟨v, _ | ⟨w, t⟩⟩⟩ <;>
        rw [hql] at hlen <;> simp at hlen
      exact hnot u v hql
    · intro m hm
      rw [hns] at hm
      rw [List.mem_singleton.1 hm]
      exact renamed_good hWFi hinv hqa hva hvb hd
  · have hf := swapChainNodes_forall₂ (chainPairs (cm.path pa pb)) cur sns hsns
    have hab : a ≠ b := by
      rw [hqa] at hargs
      intro he
      simp [he] at hargs
    have hne : pa ≠ pb := by
      intro he
      exact hab (Layout.vget_inj hinv.1 hva (he ▸ hvb))
    obtain ⟨y, t, hpshape⟩ := path_shape cm hpa hpb hne
    have hnd := cm.path_nodup pa hpa pb hpb
    have hlast := cm.path_last pa hpa pb hpb
    have hw : ((cm.path pa pb).dropLast).getLast? =
        some (permOfPairs (chainPairs (cm.path pa pb)) pa) := by
      rw [hpshape]
      exact permChain_head t pa y
    have hinv' := applyChain_inv hinv (chain_mem_vals hsns)
    intro m hm
    rw [hns] at hm
    rcases List.mem_append.1 hm with hm1 | hm2
    · rcases List.mem_map.1 hm1 with ⟨s, hs, hms⟩
      rcases forall₂_right_mem hf s hs with ⟨pr, hpr, q1, q2, hseq, hpg1, hpg2⟩
      have hdist := cm.path_chain pa hpa pb hpb pr
        (chainPairs_subset (cm.path pa pb) pr hpr)
      rw [← hms, hseq]
      have hv1 : cur.vget q1 = some pr.1 := Layout.pget_vget hinv.1 hpg1
      have hv2 : cur.vget q2 = some pr.2 := Layout.pget_vget hinv.1 hpg2
      exact renamed_good hWFi hinv rfl hv1 hv2 hdist
    · rw [List.mem_singleton.1 hm2]
      have hva' : (applyChain cur (cm.path pa pb)).vget a =
          some (permOfPairs (chainPairs (cm.path pa pb)) pa) := by
        rw [applyChain_vget, hva]
        rfl
      have hvb' : (applyChain cur (cm.path pa pb)).vget b = some pb := by
        rw [applyChain_vget, hvb]
        simp [permChain_last hnd hlast]
      have hconsec := consec_last (cm.path pa pb) _ pb hw hlast
      have hdist : cm.dist (permOfPairs (chainPairs (cm.path pa pb)) pa) pb =
          1 := cm.path_chain pa hpa pb hpb _ hconsec
      exact renamed_good hWFi hinv' hqa hva' hvb' hdist

theorem routeNode_shape {cm : Coupling} {init cur cur' : Layout} {n : Node}
    {ns : List Node} (hok : routeNode cm init cur n = .ok (cur', ns)) :
    ∃ swps c, ns = swps ++ [renameNode (Layout.combine_into_edge_map c init) n] ∧
      (∀ m ∈ swps, m.name = "swap") ∧ (c = cur ∨ c = cur') := by
  rcases routeNode_spec hok with ⟨hc, hns, _⟩ |
    ⟨a, b, pa, pb, sns, hqa, hva, hvb, hpa, hpb, hd, hsns, hc, hns⟩
  · refine ⟨[], cur, ?_, by simp, Or.inl rfl⟩
    rw [hns]
    rfl
  · have hf := swapChainNodes_forall₂ (chainPairs (cm.path pa pb)) cur sns hsns
    refine ⟨sns.map (renameNode (Layout.combine_into_edge_map cur init)),
      applyChain cur (cm.path pa pb), by rw [hns], ?_, Or.inr hc.symm⟩
    intro m hm
    rcases List.mem_map.1 hm with ⟨s, hs, hms⟩
    rcases forall₂_right_mem hf s hs with ⟨pr, hpr, q1, q2, hseq, _, _⟩
    rw [← hms, hseq]
    rfl

theorem routeLayers_good (cm : Coupling) (init : Layout) (hWFi : init.WF) :
    ∀ (nodes : List Node) (cur : Layout) (res : List Node) (curF : Layout),
    (∀ n ∈ nodes, n.qargs.Nodup) → LayoutInv init cur →
    routeLayers cm init nodes cur = .ok (res, curF) →
    ∀ m ∈ res, GoodNode cm init m := by
  intro nodes
  induction nodes with
  | nil =>
      intro cur res curF _ _ h
      simp only [routeLayers, Except.ok.injEq, Prod.mk.injEq] at h
      intro m hm
      rw [← h.1] at hm
      simp at hm
  | cons n rest ih =>
      intro cur res curF hargs hinv h
      simp only [routeLayers] at h
      rcases hr : routeNode cm init cur n with e | ⟨cur', ns⟩
      · rw [hr] at h; simp at h
      rw [hr] at h
      simp only [] at h
      rcases hrl : routeLayers cm init rest cur' with e | ⟨res', curF'⟩
      · rw [hrl] at h; simp at h
      rw [hrl] at h
      simp only [Except.ok.injEq, Prod.mk.injEq] at h
      have hinv' := routeNode_inv hinv hr
      have hgood1 := routeNode_good hWFi
        (hargs n (List.mem_cons_self n rest)) hinv hr
      have hgood2 := ih cur' res' curF'
        (fun x hx => hargs x (List.mem_cons_of_mem n hx)) hinv' hrl
      intro m hm
      rw [← h.1] at hm
      rcases List.mem_append.1 hm with h1 | h2
      · exact hgood1 m h1
      · exact hgood2 m h2

theorem routeLayers_corr (cm : Coupling) (init : Layout) (_hWFi : init.WF) :
    ∀ (nodes : List Node) (cur : Layout) (res : List Node) (curF : Layout),
    (∀ n ∈ nodes, n.name ≠ "swap") → LayoutInv init cur →
    routeLayers cm init nodes cur = .ok (res, curF) →
    ∃ curs : List Layout, curs.length = nodes.length ∧
      res.filter (fun m => !(m.name == "swap")) =
        (nodes.zip curs).map
          (fun p => renameNode (Layout.combine_into_edge_map p.2 init) p.1) ∧
      ∀ c ∈ curs, LayoutInv init c := by
  intro nodes
  induction nodes with
  | nil =>
      intro cur res curF _ _ h
      simp only [routeLayers, Except.ok.injEq, Prod.mk.injEq] at h
      refine ⟨[], rfl, ?_, by simp⟩
      rw [← h.1]
      simp
  | cons n rest ih =>
      intro cur res curF hnames hinv h
      simp only [routeLayers] at h
      rcases hr : routeNode cm init cur n with e | ⟨cur', ns⟩
      · rw [hr] at h; simp at h
      rw [hr] at h
      simp only [] at h
      rcases hrl : routeLayers cm init rest cur' with e | ⟨res', curF'⟩
      · rw [hrl] at h; simp at h
      rw [hrl] at h
      simp only [Except.ok.injEq, Prod.mk.injEq] at h
      have hinv' := routeNode_inv hinv hr
      obtain ⟨swps, c, hshape, hswaps, hcc⟩ := routeNode_shape hr
      obtain ⟨curs', hlen', hfil', hinvs'⟩ := ih cur' res' curF'
        (fun x hx => hnames x (List.mem_cons_of_mem n hx)) hinv' hrl
      refine ⟨c :: curs', by simp only [List.length_cons, hlen'], ?_, ?_⟩
      · rw [← h.1, List.filter_append, hshape, List.filter_append]
        have hsw : swps.filter (fun m => !(m.name == "swap")) = [] := by
          rw [List.filter_eq_nil_iff]
          intro m hm
          simp [hswaps m hm]
        have hkeep : [renameNode (Layout.combine_into_edge_map c init) n].filter
            (fun m => !(m.name == "swap")) =
            [renameNode (Layout.combine_into_edge_map c init) n] := by
          have hname : (renameNode (Layout.combine_into_edge_map c init) n).name =
              n.name := rfl
          have hb : (n.name == "swap") = false :=
            beq_eq_false_iff_ne.mpr (hnames n (List.mem_cons_self n rest))
          simp [List.filter, hname, hb]
        rw [hsw, hkeep, hfil']
        simp
      · intro x hx
        rcases List.mem_cons.1 hx with he | hm
        · subst he
          rcases hcc with h1 | h1
          · rw [h1]; exact hinv
          · rw [h1]; exact hinv'
        · exact hinvs' x hm

theorem combine_self_id {init : Layout} (hWFi : init.WF) {q : Qubit}
    (hq : q ∈ init.keys) :
    Layout.combine_into_edge_map init init q = some q := by
  obtain ⟨p, hp⟩ := Option.isSome_iff_exists.1 (Layout.vget_isSome_iff.2 hq)
  unfold Layout.combine_into_edge_map
  rw [hp]
  exact Layout.vget_pget hWFi hp

theorem renameNode_id {init : Layout} (hWFi : init.WF) {n : Node}
    (h : ∀ q ∈ n.qargs, q ∈ init.keys) :
    renameNode (Layout.combine_into_edge_map init init) n = n := by
  rcases n with ⟨nm, qargs⟩
  unfold renameNode
  simp only [Node.mk.injEq, true_and]
  have hc : ∀ q ∈ qargs,
      (Layout.combine_into_edge_map init init q).getD q = q := by
    intro q hq
    rw [combine_self_id hWFi (h q hq)]
    rfl
  calc qargs.map (fun q => (Layout.combine_into_edge_map init init q).getD q)
      = qargs.map id := List.map_congr_left hc
    _ = qargs := List.map_id qargs

theorem routeNode_id {cm : Coupling} {init : Layout} {n : Node}
    (hWFi : init.WF)
    (hkeys : ∀ q ∈ n.qargs, q ∈ init.keys)
    (h2 : ∀ a b, n.qargs = [a, b] → ∃ pa pb,
      init.vget a = some pa ∧ init.vget b = some pb ∧
      pa < cm.size ∧ pb < cm.size ∧ cm.dist pa pb = 1) :
    routeNode cm init init n = .ok (init, [n]) := by
  rcases n with ⟨nm, qargs⟩
  rcases hql : qargs with _ | ⟨a, _ | ⟨b, _ | ⟨c, t⟩⟩⟩
  · simp only [routeNode]
    rw [renameNode_id hWFi (hql ▸ hkeys)]
  · simp only [routeNode]
    rw [renameNode_id hWFi (hql ▸ hkeys)]
  · obtain ⟨pa, pb, hva, hvb, hpa, hpb, hd⟩ := h2 a b (by rw [hql])
    simp only [routeNode]
    rw [hva, hvb]
    simp only [Coupling.distance, if_pos hpa, if_pos hpb]
    rw [if_pos hd]
    rw [renameNode_id hWFi (hql ▸ hkeys)]
  · simp only [routeNode]
    rw [renameNode_id hWFi (hql ▸ hkeys)]

theorem routeLayers_id (cm : Coupling) (init : Layout) (hWFi : init.WF) :
    ∀ (nodes : List Node),
    (∀ n ∈ nodes, ∀ q ∈ n.qargs, q ∈ init.keys) →
    (∀ n ∈ nodes, ∀ a b, n.qargs = [a, b] → ∃ pa pb,
      init.vget a = some pa ∧ init.vget b = some pb ∧
      pa < cm.size ∧ pb < cm.size ∧ cm.dist pa pb = 1) →
    routeLayers cm init nodes init = .ok (nodes, init) := by
  intro nodes
  induction nodes with
  | nil => intro _ _; rfl
  | cons n rest ih =>
      intro hkeys h2
      have hn := routeNode_id hWFi
        (hkeys n (List.mem_cons_self n rest))
        (h2 n (List.mem_cons_self n rest))
      have hr := ih (fun x hx => hkeys x (List.mem_cons_of_mem n hx))
        (fun x hx => h2 x (List.mem_cons_of_mem n hx))
      simp only [routeLayers]
      rw [hn]
      simp only []
      rw [hr]
      exact rfl

theorem run_ok {pass : StochasticMapper} {dag : DAG} {out : DAG}
    (h : (pass.run dag).1 = .ok out) :
    ∃ r curF, routeLayers pass.coupling_map (resolvedLayout pass dag) dag.nodes
      (resolvedLayout pass dag) = .ok (r, curF) ∧ out = ⟨dag.qregs, r⟩ := by
  unfold StochasticMapper.run at h
  simp only [] at h
  rcases hr : routeLayers pass.coupling_map (resolvedLayout pass dag) dag.nodes
      (resolvedLayout pass dag) with e | ⟨r, curF⟩
  · rw [hr] at h
    simp [Except.map] at h
  · rw [hr] at h
    simp only [Except.map, Except.ok.injEq] at h
    exact ⟨r, curF, rfl, h.symm⟩

/-- C5: for every program, coupling graph and initial layout, any two values
of the trials and seed constructor parameters give the same output graph: the
routing is deterministic and the two parameters are inert. -/
theorem trials_seed_inert (cm : Coupling) (il : Option Layout)
    (t1 t2 : Nat) (s1 s2 : Option Nat) (dag : DAG) :
    ((⟨cm, il, t1, s1⟩ : StochasticMapper).run dag).1 =
      ((⟨cm, il, t2, s2⟩ : StochasticMapper).run dag).1 := rfl

/-- C6: when the caller supplies an initial layout, the run uses it unchanged
as the starting point of the routing loop and leaves the pass object, in
particular the stored layout, exactly as it was; all swap updates happen on
the separate current layout threaded through routeLayers. -/
theorem supplied_layout_respected (cm : Coupling) (l : Layout) (t : Nat)
    (s : Option Nat) (dag : DAG) :
    ((⟨cm, some l, t, s⟩ : StochasticMapper).run dag).2 =
      (⟨cm, some l, t, s⟩ : StochasticMapper) ∧
    ((⟨cm, some l, t, s⟩ : StochasticMapper).run dag).1 =
      (routeLayers cm l dag.nodes l).map (fun r => ⟨dag.qregs, r.1⟩) :=
  ⟨rfl, rfl⟩

/-- C8 counterexample: the pass stores the constructed initial layout on the
pass object, so a second run on a program with different registers behaves
differently from a fresh first run on that program: the reused layout lacks
the new registers and the run fails, while a fresh run succeeds. -/
theorem cross_run_memory_counterexample :
    (((passL.run dagA).2).run dagB).1 ≠ (passL.run dagB).1 := by decide

/-- C8 amended: the pass object does keep cross-run memory, namely the
initial layout constructed by the first run; this memory is invisible exactly
when the second program resolves through the stored layout the same way, in
particular a repeated run on the same program gives the same output. -/
theorem rerun_same_dag (pass : StochasticMapper) (dag : DAG) :
    (((pass.run dag).2).run dag).1 = (pass.run dag).1 := by
  rcases pass with ⟨cm, il, t, s⟩
  rcases il with _ | l
  · rfl
  · rfl

/-- C9 counterexample: on the 4-resource line 0-1-2-3 with the two-qubit
operation between the logical resources placed on 0 and 3, the run inserts
two swaps but realizes the operation on the wires that the starting layout
places on physical resources 2 and 3; the routed program operation does not
act on the middle pair, whose wires are the ones mapped to 1 and 2. -/
theorem scenario_line4_counterexample :
    (passL.run dagL).1 = .ok outL ∧
    (∀ n ∈ outL.nodes, n.name = "cx" →
      n.qargs ≠ [("q", 1), ("q", 2)] ∧ n.qargs ≠ [("q", 2), ("q", 1)]) ∧
    (resolvedLayout passL dagL).vget ("q", 1) = some 1 ∧
    (resolvedLayout passL dagL).vget ("q", 2) = some 2 := by decide

/-- C9 amended: on the 4-resource line 0-1-2-3 with the two-qubit operation
between the logical resources placed on 0 and 3, the run inserts a chain of
exactly two swaps along the only path, and the operation is realized on
physical resources 2 and 3: the penultimate path resource and the far
endpoint, not the two middle resources. -/
theorem scenario_line4_routed :
    (passL.run dagL).1 = .ok outL ∧
    (resolvedLayout passL dagL).vget ("q", 2) = some 2 ∧
    (resolvedLayout passL dagL).vget ("q", 3) = some 3 ∧
    (outL.nodes.filter (fun m => m.name == "swap")).length = 2 := by decide

/-- C7 counterexample: a coupling graph with fewer physical resources (4)
than the program has logical resources (5) does not make the run fail:
initial-layout construction assigns identifiers past the graph without any
check, and a run whose operations stay in range completes normally. -/
theorem small_graph_no_failure :
    lineCoupling4.size = 4 ∧
    (buildLayout dag5.qregs).keys.length = 5 ∧
    (passL.run dag5).1 = .ok dag5 := by decide

theorem routeNode_non2 {cm : Coupling} {init cur : Layout} {n : Node}
    (h : n.qargs.length ≠ 2) :
    routeNode cm init cur n =
      .ok (cur, [renameNode (Layout.combine_into_edge_map cur init) n]) := by
  rcases n with ⟨nm, qargs⟩
  rcases qargs with _ | ⟨a, _ | ⟨b, _ | ⟨c, t⟩⟩⟩
  · rfl
  · rfl
  · simp at h
  · rfl

theorem routeLayers_non2 (cm : Coupling) (init : Layout) :
    ∀ (nodes : List Node) (cur : Layout),
    (∀ n ∈ nodes, n.qargs.length ≠ 2) →
    ∃ r curF, routeLayers cm init nodes cur = .ok (r, curF) := by
  intro nodes
  induction nodes with
  | nil => intro cur _; exact ⟨[], cur, rfl⟩
  | cons n rest ih =>
      intro cur h
      obtain ⟨r, curF, hr⟩ := ih cur (fun x hx => h x (List.mem_cons_of_mem n hx))
      refine ⟨[renameNode (Layout.combine_into_edge_map cur init) n] ++ r,
        curF, ?_⟩
      simp only [routeLayers]
      rw [routeNode_non2 (h n (List.mem_cons_self n rest))]
      simp only []
      rw [hr]

theorem routeNode_out_of_range {cm : Coupling} {init cur : Layout} {n : Node}
    {a b : Qubit} {pa : Nat}
    (hqa : n.qargs = [a, b]) (hva : cur.vget a = some pa)
    (hpa : ¬ pa < cm.size) :
    ∃ msg, routeNode cm init cur n = .error msg := by
  rcases n with ⟨nm, qargs⟩
  simp only at hqa
  subst hqa
  rcases hvb : cur.vget b with _ | pb
  · refine ⟨"qubit not in layout", ?_⟩
    simp only [routeNode]
    rw [hva, hvb]
  · refine ⟨"qubit not in coupling graph", ?_⟩
    simp only [routeNode]
    rw [hva, hvb]
    simp only [Coupling.distance, if_neg hpa]

/-- C7 amended: initial-layout construction never fails, whatever the sizes:
it assigns physical identifiers 0, 1, 2, and so on without consulting the
coupling graph, and a run whose program has no two-qubit operation succeeds
even when the graph is smaller than the program.  The mismatch only surfaces
when a two-qubit operation resolves to a physical resource outside the graph,
at the coupling-graph distance query. -/
theorem insufficient_resources_detected_late :
    (∀ (cm : Coupling) (t : Nat) (s : Option Nat) (dag : DAG),
      (∀ n ∈ dag.nodes, n.qargs.length ≠ 2) →
      ∃ d, ((⟨cm, none, t, s⟩ : StochasticMapper).run dag).1 = .ok d) ∧
    (∀ (cm : Coupling) (t : Nat) (s : Option Nat) (dag : DAG) (n : Node)
      (rest : List Node) (a b : Qubit) (pa : Nat),
      dag.nodes = n :: rest → n.qargs = [a, b] →
      (buildLayout dag.qregs).vget a = some pa → ¬ pa < cm.size →
      ∃ msg, ((⟨cm, none, t, s⟩ : StochasticMapper).run dag).1 =
        .error msg) := by
  constructor
  · intro cm t s dag h
    obtain ⟨r, curF, hr⟩ := routeLayers_non2 cm (buildLayout dag.qregs)
      dag.nodes (buildLayout dag.qregs) h
    refine ⟨⟨dag.qregs, r⟩, ?_⟩
    unfold StochasticMapper.run
    simp only [resolvedLayout]
    rw [hr]
    rfl
  · intro cm t s dag n rest a b pa hnodes hqa hva hpa
    obtain ⟨msg, hmsg⟩ := @routeNode_out_of_range cm (buildLayout dag.qregs)
      (buildLayout dag.qregs) n a b pa hqa hva hpa
    refine ⟨msg, ?_⟩
    unfold StochasticMapper.run
    simp only [resolvedLayout]
    rw [hnodes]
    simp only [routeLayers]
    rw [hmsg]
    rfl

/-- C7 amended, witness: the five-qubit single-qubit-only program runs to
completion on the four-resource graph, and the five-qubit program whose
two-qubit operation touches the out-of-range resource fails with an error. -/
theorem insufficient_resources_detected_late_witness :
    (∃ d, ((⟨lineCoupling4, none, 20, none⟩ : StochasticMapper).run dag5).1 =
      .ok d) ∧
    (∃ msg, ((⟨lineCoupling4, none, 20, none⟩ : StochasticMapper).run
      dag5cx).1 = .error msg) :=
  ⟨insufficient_resources_detected_late.1 lineCoupling4 20 none dag5
      (by decide),
    insufficient_resources_detected_late.2 lineCoupling4 20 none dag5cx
      ⟨"cx", [("q", 4), ("q", 0)]⟩ [] ("q", 4) ("q", 0) 4 (by decide)
      (by decide) (by decide) (by decide)⟩

/-- C1: for every program, coupling graph and (optional) starting layout
satisfying the preconditions (the resolved starting layout is a partial
bijection and every operation names distinct wires), every two-qubit
operation of a successfully returned graph, resolved through the starting
layout to physical resources, acts on a pair at coupling distance one. -/
theorem adjacency_satisfaction (pass : StochasticMapper) (dag : DAG)
    (out : DAG)
    (hWF : (resolvedLayout pass dag).WF)
    (hargs : ∀ n ∈ dag.nodes, n.qargs.Nodup)
    (hrun : (pass.run dag).1 = .ok out) :
    ∀ n ∈ out.nodes, GoodNode pass.coupling_map (resolvedLayout pass dag) n := by
  obtain ⟨r, curF, hr, hout⟩ := run_ok hrun
  have := routeLayers_good pass.coupling_map (resolvedLayout pass dag) hWF
    dag.nodes (resolvedLayout pass dag) r curF hargs
    ⟨hWF, rfl, fun p => Iff.rfl⟩ hr
  intro n hn
  rw [hout] at hn
  exact this n hn

/-- C1 witness: the adjacency guarantee evaluated on the concrete line-graph
scenario, at the routed two-qubit operation of the output. -/
theorem adjacency_satisfaction_witness :
    ∃ pa pb, (resolvedLayout passL dagL).vget ("q", 2) = some pa ∧
      (resolvedLayout passL dagL).vget ("q", 3) = some pb ∧
      passL.coupling_map.dist pa pb = 1 :=
  adjacency_satisfaction passL dagL outL ⟨by decide, by decide⟩ (by decide)
    (by decide) ⟨"cx", [("q", 2), ("q", 3)]⟩ (by decide) ("q", 2) ("q", 3) rfl

/-- C3: if every two-qubit operation of the program is already between
coupling-adjacent physical resources under the resolved starting layout (the
supplied one, or the default one-to-one layout when none is supplied), the
run inserts nothing and returns the input graph itself. -/
theorem noop_stability (pass : StochasticMapper) (dag : DAG)
    (hWF : (resolvedLayout pass dag).WF)
    (hkeys : ∀ n ∈ dag.nodes, ∀ q ∈ n.qargs, q ∈ (resolvedLayout pass dag).keys)
    (hadj : ∀ n ∈ dag.nodes, ∀ a b, n.qargs = [a, b] → ∃ pa pb,
      (resolvedLayout pass dag).vget a = some pa ∧
      (resolvedLayout pass dag).vget b = some pb ∧
      pa < pass.coupling_map.size ∧ pb < pass.coupling_map.size ∧
      pass.coupling_map.dist pa pb = 1) :
    (pass.run dag).1 = .ok dag := by
  unfold StochasticMapper.run
  simp only []
  rw [routeLayers_id pass.coupling_map (resolvedLayout pass dag) hWF
    dag.nodes hkeys hadj]
  rcases dag with ⟨qregs, nodes⟩
  rfl

/-- C3 witness: a program whose only two-qubit operation is already on an
edge of the line graph is returned unchanged under the default layout. -/
theorem noop_stability_witness :
    ((⟨lineCoupling4, none, 20, none⟩ : StochasticMapper).run dagA).1 =
      .ok dagA :=
  noop_stability ⟨lineCoupling4, none, 20, none⟩ dagA ⟨by decide, by decide⟩
    (by decide)
    (by
      intro n hn a b hqa
      simp only [dagA, List.mem_singleton] at hn
      subst hn
      simp only at hqa
      have ha : a = ("a", 0) := by
        injection hqa with h1 h2
        exact h1.symm
      have hb : b = ("a", 1) := by
        injection hqa with h1 h2
        injection h2 with h3 h4
        exact h3.symm
      subst ha
      subst hb
      exact ⟨0, 1, by decide, by decide, by decide, by decide, by decide⟩)

/-- C2: in a successfully returned graph the program's own operations appear
exactly once each, in their original order, with only their wire labels
rewritten: stripping the inserted swap operations leaves the input node list
renamed node by node through a bijective relabeling (an edge map built from a
layout with the same keys and the same physical values as the starting
layout), so no program operation is reordered, dropped or duplicated and
every per-resource order is preserved. -/
theorem semantic_preservation (pass : StochasticMapper) (dag : DAG)
    (out : DAG)
    (hWF : (resolvedLayout pass dag).WF)
    (hnames : ∀ n ∈ dag.nodes, n.name ≠ "swap")
    (hrun : (pass.run dag).1 = .ok out) :
    ∃ curs : List Layout, curs.length = dag.nodes.length ∧
      out.nodes.filter (fun m => !(m.name == "swap")) =
        (dag.nodes.zip curs).map
          (fun p => renameNode (Layout.combine_into_edge_map p.2
            (resolvedLayout pass dag)) p.1) ∧
      ∀ c ∈ curs, LayoutInv (resolvedLayout pass dag) c := by
  obtain ⟨r, curF, hr, hout⟩ := run_ok hrun
  have hcorr := routeLayers_corr pass.coupling_map (resolvedLayout pass dag)
    hWF dag.nodes (resolvedLayout pass dag) r curF hnames
    ⟨hWF, rfl, fun p => Iff.rfl⟩ hr
  rw [hout]
  exact hcorr

/-- C2 witness: the correspondence evaluated on the concrete line-graph
scenario. -/
theorem semantic_preservation_witness :
    ∃ curs : List Layout, curs.length = dagL.nodes.length ∧
      outL.nodes.filter (fun m => !(m.name == "swap")) =
        (dagL.nodes.zip curs).map
          (fun p => renameNode (Layout.combine_into_edge_map p.2
            (resolvedLayout passL dagL)) p.1) ∧
      ∀ c ∈ curs, LayoutInv (resolvedLayout passL dagL) c :=
  semantic_preservation passL dagL outL ⟨by decide, by decide⟩ (by decide)
    (by decide)

/-- C4: for a two-qubit operation whose resolved physical resources are at
distance greater than one, a successful routing step derives from the one
shortest path of k resources a chain of exactly k-2 swap operations (one per
adjacent pair along the path, the final pair excluded), mutates the layout by
exactly that chain, and afterwards the logical resource from the near
endpoint sits on the penultimate path resource, adjacent to the far endpoint
where the other logical resource still sits, while every resource strictly
between the endpoints has been shifted one hop toward the near endpoint. -/
theorem swap_chain_correctness (cm : Coupling) (init cur cur' : Layout)
    (n : Node) (ns : List Node) (a b : Qubit) (pa pb : Nat)
    (hqa : n.qargs = [a, b])
    (hva : cur.vget a = some pa) (hvb : cur.vget b = some pb)
    (hpa : pa < cm.size) (hpb : pb < cm.size)
    (hd : 1 < cm.dist pa pb)
    (hok : routeNode cm init cur n = .ok (cur', ns)) :
    cur' = applyChain cur (cm.path pa pb) ∧
    (∃ sns, swapChainNodes cur (cm.path pa pb) = .ok sns ∧
      sns.length = (cm.path pa pb).length - 2 ∧
      ns = sns.map (renameNode (Layout.combine_into_edge_map cur init)) ++
        [renameNode (Layout.combine_into_edge_map cur' init) n]) ∧
    (∃ w, ((cm.path pa pb).dropLast).getLast? = some w ∧
      (cm.path pa pb).getLast? = some pb ∧
      cur'.vget a = some w ∧ cur'.vget b = some pb ∧ cm.dist w pb = 1) ∧
    (∀ q j, j + 2 < (cm.path pa pb).length →
      cur.vget q = some ((cm.path pa pb).getD (j + 1) 0) →
      cur'.vget q = some ((cm.path pa pb).getD j 0)) := by
  rcases routeNode_spec hok with ⟨hc, hns, hcase⟩ |
    ⟨a2, b2, pa2, pb2, sns, hqa2, hva2, hvb2, hpa2, hpb2, hd2, hsns, hc, hns⟩
  · exfalso
    rcases hcase with hnot | ⟨a2, b2, pa2, pb2, hqa2, hva2, hvb2, _, _, hd2⟩
    · exact hnot a b hqa
    · rw [hqa] at hqa2
      have ha : a = a2 := by injection hqa2 with h1 h2
      have hb : b = b2 := by
        injection hqa2 with h1 h2
        injection h2 with h3 h4
      subst ha
      subst hb
      rw [hva] at hva2
      rw [hvb] at hvb2
      have hpa' : pa = pa2 := Option.some.inj hva2
      have hpb' : pb = pb2 := Option.some.inj hvb2
      subst hpa'
      subst hpb'
      omega
  · rw [hqa] at hqa2
    have ha : a = a2 := by injection hqa2 with h1 h2
    have hb : b = b2 := by
      injection hqa2 with h1 h2
      injection h2 with h3 h4
    subst ha
    subst hb
    rw [hva] at hva2
    rw [hvb] at hvb2
    have hpa' : pa = pa2 := Option.some.inj hva2
    have hpb' : pb = pb2 := Option.some.inj hvb2
    subst hpa'
    subst hpb'
    have hne : pa ≠ pb := by
      intro he
      rw [← he] at hd
      rw [cm.dist_self pa hpa] at hd
      omega
    obtain ⟨y, t, hpshape⟩ := path_shape cm hpa hpb hne
    have hnd := cm.path_nodup pa hpa pb hpb
    have hlast := cm.path_last pa hpa pb hpb
    have hw : ((cm.path pa pb).dropLast).getLast? =
        some (permOfPairs (chainPairs (cm.path pa pb)) pa) := by
      rw [hpshape]
      exact permChain_head t pa y
    have hlen : sns.length = (cm.path pa pb).length - 2 := by
      have hf := swapChainNodes_forall₂ (chainPairs (cm.path pa pb)) cur
        sns hsns
      rw [← hf.length_eq, chainPairs_length]
    refine ⟨hc, ⟨sns, hsns, hlen, by rw [hns, hc]⟩, ?_, ?_⟩
    · refine ⟨permOfPairs (chainPairs (cm.path pa pb)) pa, hw, hlast, ?_, ?_, ?_⟩
      · rw [hc, applyChain_vget, hva]
        rfl
      · rw [hc, applyChain_vget, hvb]
        simp [permChain_last hnd hlast]
      · exact cm.path_chain pa hpa pb hpb _
          (consec_last (cm.path pa pb) _ pb hw hlast)
    · intro q j hj hvq
      rw [hc, applyChain_vget, hvq]
      exact congrArg some (permChain_middle (cm.path pa pb) hnd j hj)

/-- C4 witness: the chain derivation evaluated on the concrete line-graph
scenario, path 0-1-2-3 with endpoints 0 and 3. -/
theorem swap_chain_correctness_witness :
    (⟨[(("q", 0), 2), (("q", 1), 0), (("q", 2), 1), (("q", 3), 3)]⟩ : Layout) =
      applyChain (buildLayout [("q", 4)]) (lineCoupling4.path 0 3) ∧
    (∃ sns, swapChainNodes (buildLayout [("q", 4)])
        (lineCoupling4.path 0 3) = .ok sns ∧
      sns.length = (lineCoupling4.path 0 3).length - 2 ∧
      ([⟨"swap", [("q", 0), ("q", 1)]⟩, ⟨"swap", [("q", 1), ("q", 2)]⟩,
        ⟨"cx", [("q", 2), ("q", 3)]⟩] : List Node) =
        sns.map (renameNode (Layout.combine_into_edge_map
          (buildLayout [("q", 4)]) (buildLayout [("q", 4)]))) ++
        [renameNode (Layout.combine_into_edge_map
          (⟨[(("q", 0), 2), (("q", 1), 0), (("q", 2), 1), (("q", 3), 3)]⟩ :
            Layout) (buildLayout [("q", 4)]))
          ⟨"cx", [("q", 0), ("q", 3)]⟩]) ∧
    (∃ w, ((lineCoupling4.path 0 3).dropLast).getLast? = some w ∧
      (lineCoupling4.path 0 3).getLast? = some 3 ∧
      (⟨[(("q", 0), 2), (("q", 1), 0), (("q", 2), 1), (("q", 3), 3)]⟩ :
        Layout).vget ("q", 0) = some w ∧
      (⟨[(("q", 0), 2), (("q", 1), 0), (("q", 2), 1), (("q", 3), 3)]⟩ :
        Layout).vget ("q", 3) = some 3 ∧ lineCoupling4.dist w 3 = 1) ∧
    (∀ q j, j + 2 < (lineCoupling4.path 0 3).length →
      (buildLayout [("q", 4)]).vget q =
        some ((lineCoupling4.path 0 3).getD (j + 1) 0) →
      (⟨[(("q", 0), 2), (("q", 1), 0), (("q", 2), 1), (("q", 3), 3)]⟩ :
        Layout).vget q = some ((lineCoupling4.path 0 3).getD j 0)) :=
  swap_chain_correctness lineCoupling4 (buildLayout [("q", 4)])
    (buildLayout [("q", 4)])
    ⟨[(("q", 0), 2), (("q", 1), 0), (("q", 2), 1), (("q", 3), 3)]⟩
    ⟨"cx", [("q", 0), ("q", 3)]⟩
    [⟨"swap", [("q", 0), ("q", 1)]⟩, ⟨"swap", [("q", 1), ("q", 2)]⟩,
      ⟨"cx", [("q", 2), ("q", 3)]⟩]
    ("q", 0) ("q", 3) 0 3 (by decide) (by decide) (by decide) (by decide)
    (by decide) (by decide) (by decide)

/-- C10: within one swap chain, every inserted swap operation takes its wire
labels from the layout as it stood before any swap of the chain was applied:
the emitted chain nodes pair each path step with the occupants of the frozen
pre-chain layout, and the layout is replaced by the updated one only
afterwards, for the remainder of the run. -/
theorem swap_labels_frozen (cm : Coupling) (init cur cur' : Layout)
    (n : Node) (ns : List Node) (a b : Qubit) (pa pb : Nat)
    (hqa : n.qargs = [a, b])
    (hva : cur.vget a = some pa) (hvb : cur.vget b = some pb)
    (hd : cm.dist pa pb ≠ 1)
    (hok : routeNode cm init cur n = .ok (cur', ns)) :
    cur' = applyChain cur (cm.path pa pb) ∧
    ∃ sns, swapChainNodes cur (cm.path pa pb) = .ok sns ∧
      ns = sns.map (renameNode (Layout.combine_into_edge_map cur init)) ++
        [renameNode (Layout.combine_into_edge_map cur' init) n] ∧
      List.Forall₂ (fun pr m => ∃ q1 q2, m = Node.mk "swap" [q1, q2] ∧
        cur.pget pr.1 = some q1 ∧ cur.pget pr.2 = some q2)
        (chainPairs (cm.path pa pb)) sns := by
  rcases routeNode_spec hok with ⟨hc, hns, hcase⟩ |
    ⟨a2, b2, pa2, pb2, sns, hqa2, hva2, hvb2, hpa2, hpb2, hd2, hsns, hc, hns⟩
  · exfalso
    rcases hcase with hnot | ⟨a2, b2, pa2, pb2, hqa2, hva2, hvb2, _, _, hd2⟩
    · exact hnot a b hqa
    · rw [hqa] at hqa2
      have ha : a = a2 := by injection hqa2 with h1 h2
      have hb : b = b2 := by
        injection hqa2 with h1 h2
        injection h2 with h3 h4
      subst ha
      subst hb
      rw [hva] at hva2
      rw [hvb] at hvb2
      have hpa' : pa = pa2 := Option.some.inj hva2
      have hpb' : pb = pb2 := Option.some.inj hvb2
      subst hpa'
      subst hpb'
      exact hd hd2
  · rw [hqa] at hqa2
    have ha : a = a2 := by injection hqa2 with h1 h2
    have hb : b = b2 := by
      injection hqa2 with h1 h2
      injection h2 with h3 h4
    subst ha
    subst hb
    rw [hva] at hva2
    rw [hvb] at hvb2
    have hpa' : pa = pa2 := Option.some.inj hva2
    have hpb' : pb = pb2 := Option.some.inj hvb2
    subst hpa'
    subst hpb'
    exact ⟨hc, sns, hsns, by rw [hns, hc],
      swapChainNodes_forall₂ (chainPairs (cm.path pa pb)) cur sns hsns⟩

/-- C10 witness: the frozen-labels property evaluated on the line graph with
the chain running from resource 3 down to resource 0; the second swap is
labelled with the original occupants of resources 2 and 1, not with the
labels a swap-by-swap update would give. -/
theorem swap_labels_frozen_witness :
    (⟨[(("q", 0), 0), (("q", 1), 2), (("q", 2), 3), (("q", 3), 1)]⟩ : Layout) =
      applyChain (buildLayout [("q", 4)]) (lineCoupling4.path 3 0) ∧
    ∃ sns, swapChainNodes (buildLayout [("q", 4)])
        (lineCoupling4.path 3 0) = .ok sns ∧
      ([⟨"swap", [("q", 3), ("q", 2)]⟩, ⟨"swap", [("q", 2), ("q", 1)]⟩,
        ⟨"cx", [("q", 1), ("q", 0)]⟩] : List Node) =
        sns.map (renameNode (Layout.combine_into_edge_map
          (buildLayout [("q", 4)]) (buildLayout [("q", 4)]))) ++
        [renameNode (Layout.combine_into_edge_map
          (⟨[(("q", 0), 0), (("q", 1), 2), (("q", 2), 3), (("q", 3), 1)]⟩ :
            Layout) (buildLayout [("q", 4)]))
          ⟨"cx", [("q", 3), ("q", 0)]⟩] ∧
      List.Forall₂ (fun pr m => ∃ q1 q2, m = Node.mk "swap" [q1, q2] ∧
        (buildLayout [("q", 4)]).pget pr.1 = some q1 ∧
        (buildLayout [("q", 4)]).pget pr.2 = some q2)
        (chainPairs (lineCoupling4.path 3 0)) sns :=
  swap_labels_frozen lineCoupling4 (buildLayout [("q", 4)])
    (buildLayout [("q", 4)])
    ⟨[(("q", 0), 0), (("q", 1), 2), (("q", 2), 3), (("q", 3), 1)]⟩
    ⟨"cx", [("q", 3), ("q", 0)]⟩
    [⟨"swap", [("q", 3), ("q", 2)]⟩, ⟨"swap", [("q", 2), ("q", 1)]⟩,
      ⟨"cx", [("q", 1), ("q", 0)]⟩]
    ("q", 3) ("q", 0) 3 0 (by decide) (by decide) (by decide) (by decide)
    (by decide)
